import Mathlib

/-!
# Verification of the rustdiff delta-synchronization core

A shallow embedding of the rustdiff pipeline (rolling weak checksums,
signature generation, delta generation, patching) together with proofs
of the specification's claims about it.

Conventions of the embedding:
* Rust `u8` / `u32` / `usize` values are modelled as `Nat`, with an
  explicit `% 2^32` wherever the Rust operation can wrap.  Rust release
  builds wrap on under/overflow; debug builds panic at exactly the same
  inputs, so every input on which the wrapped value differs from the
  mathematical one is an input on which a debug build crashes.
* Fallible operations (out-of-range slice indexing, `step_by(0)`,
  a `panic!`, or a diverging loop) are modelled with `Option`, `none`
  standing for "no result is produced".
* File I/O and serialization are external collaborators per the spec;
  functions take and return byte lists directly.
-/

/-- The constant `2^32`, the wrap modulus of Rust `u32` arithmetic. -/
def U32 : Nat := 4294967296

/-- Wrapping `u32` subtraction: the value a Rust release build computes for
`x - y` on `u32` operands (debug builds panic when `x < y`). -/
def u32sub (x y : Nat) : Nat := (x + (U32 - y % U32)) % U32

/-- The mutable state of either checksum struct: accumulators `a`, `b`
and the byte window (`current_window` in the source). -/
structure HashState where
  a : Nat
  b : Nat
  current_window : List Nat
deriving Repr, DecidableEq

/-- Computes `(self.b << 16) | self.a` on `u32` values (`get_current_hash` is
textually identical in `adler_32.rs` and `fletcher_32.rs`). -/
def get_current_hash (s : HashState) : Nat :=
  ((s.b <<< 16) % U32) ||| (s.a % U32)

namespace Adler32

/-- The constant `MOD: u32 = 65521` from `adler_32.rs`. -/
def MOD : Nat := 65521

/-- Constructor `Adler32::new()`: `a = 1, b = 0`, empty window. -/
def new : HashState := { a := 1, b := 0, current_window := [] }

/-- One iteration of the `for byte in chunk` loop of
`Adler32::get_chunk_hash`. -/
def chunkStep (ab : Nat × Nat) (byte : Nat) : Nat × Nat :=
  let a := (ab.1 + byte) % MOD
  (a, (ab.2 + a) % MOD)

/-- Method `Adler32::get_chunk_hash`: folds the chunk into the accumulators
(note: it does NOT reset `a`, `b` first) and replaces the window with the
chunk.  Returns the updated state and the returned hash. -/
def get_chunk_hash (s : HashState) (chunk : List Nat) : HashState × Nat :=
  let ab := chunk.foldl chunkStep (s.a, s.b)
  let s' : HashState := { a := ab.1, b := ab.2, current_window := chunk }
  (s', get_current_hash s')

/-- Method `Adler32::get_rolling_hash`: add the new byte, then remove the oldest
window byte.  The two subtractions are performed with wrapping `u32`
arithmetic, exactly as in the source (which does not add the modulus
before subtracting). -/
def get_rolling_hash (s : HashState) (new_byte : Nat) : HashState × Nat :=
  let a1 := (s.a + new_byte) % MOD
  let b1 := (u32sub (s.b + a1) 1) % MOD
  let w1 := s.current_window ++ [new_byte]
  let last_byte := w1.headD 0
  let size := w1.length
  let a2 := (u32sub a1 last_byte) % MOD
  let b2 := (u32sub b1 ((size * last_byte) % U32)) % MOD
  let s' : HashState := { a := a2, b := b2, current_window := w1.tail }
  (s', get_current_hash s')

end Adler32

namespace Fletcher32

/-- The constant `MOD: u32 = 65535` from `fletcher_32.rs`. -/
def MOD : Nat := 65535

/-- Constructor `Fletcher32::new()`: `a = 0, b = 0`, empty window. -/
def new : HashState := { a := 0, b := 0, current_window := [] }

/-- One iteration of the `for byte in chunk` loop of
`Fletcher32::get_chunk_hash`. -/
def chunkStep (ab : Nat × Nat) (byte : Nat) : Nat × Nat :=
  let a := (ab.1 + byte) % MOD
  (a, (ab.2 + a) % MOD)

/-- Method `Fletcher32::get_chunk_hash` (same shape as Adler's; no reset). -/
def get_chunk_hash (s : HashState) (chunk : List Nat) : HashState × Nat :=
  let ab := chunk.foldl chunkStep (s.a, s.b)
  let s' : HashState := { a := ab.1, b := ab.2, current_window := chunk }
  (s', get_current_hash s')

/-- Method `Fletcher32::get_rolling_hash`: like Adler's but without the `- 1`
correction on `b`.  Subtractions wrap, as in the source. -/
def get_rolling_hash (s : HashState) (new_byte : Nat) : HashState × Nat :=
  let a1 := (s.a + new_byte) % MOD
  let b1 := (s.b + a1) % MOD
  let w1 := s.current_window ++ [new_byte]
  let last_byte := w1.headD 0
  let size := w1.length
  let a2 := (u32sub a1 last_byte) % MOD
  let b2 := (u32sub b1 ((size * last_byte) % U32)) % MOD
  let s' : HashState := { a := a2, b := b2, current_window := w1.tail }
  (s', get_current_hash s')

end Fletcher32

/-- The two weak-checksum variants behind the `Algorithm` trait. -/
inductive Algo where
  | adler
  | fletcher
deriving DecidableEq, Repr

/-- Dispatch of `get_chunk_hash` over the trait object. -/
def Algo.chunkHash : Algo → HashState → List Nat → HashState × Nat
  | .adler => Adler32.get_chunk_hash
  | .fletcher => Fletcher32.get_chunk_hash

/-- Dispatch of `get_rolling_hash` over the trait object. -/
def Algo.rollingHash : Algo → HashState → Nat → HashState × Nat
  | .adler => Adler32.get_rolling_hash
  | .fletcher => Fletcher32.get_rolling_hash

/-- The freshly constructed state (`Adler32::new()` / `Fletcher32::new()`). -/
def Algo.newState : Algo → HashState
  | .adler => Adler32.new
  | .fletcher => Fletcher32.new

/-- The algorithm selected by a string, mirroring the source's
`match algorithm` arms: `"fletcher"` picks Fletcher-32 and every other
string (including `"adler"`) falls through to Adler-32. -/
def algoOfString (s : String) : Algo :=
  if s = "fletcher" then Algo.fletcher else Algo.adler

namespace Blake2s

/-- Right rotation of a 32-bit word. -/
def rotr (x n : Nat) : Nat := ((x >>> n) ||| (x <<< (32 - n))) % U32

/-- The BLAKE2s initialization vector (RFC 7693). -/
def IV : List Nat :=
  [0x6A09E667, 0xBB67AE85, 0x3C6EF372, 0xA54FF53A,
   0x510E527F, 0x9B05688C, 0x1F83D9AB, 0x5BE0CD19]

/-- The BLAKE2 message schedule SIGMA (RFC 7693). -/
def SIGMA : List (List Nat) :=
  [[0, 1, 2, 3, 4, 5, 6, 7, 8, 9, 10, 11, 12, 13, 14, 15],
   [14, 10, 4, 8, 9, 15, 13, 6, 1, 12, 0, 2, 11, 7, 5, 3],
   [11, 8, 12, 0, 5, 2, 15, 13, 10, 14, 3, 6, 7, 1, 9, 4],
   [7, 9, 3, 1, 13, 12, 11, 14, 2, 6, 5, 10, 4, 0, 15, 8],
   [9, 0, 5, 7, 2, 4, 10, 15, 14, 1, 11, 12, 6, 8, 3, 13],
   [2, 12, 6, 10, 0, 11, 8, 3, 4, 13, 7, 5, 15, 14, 1, 9],
   [12, 5, 1, 15, 14, 13, 4, 10, 0, 7, 6, 3, 9, 2, 8, 11],
   [13, 11, 7, 14, 12, 1, 3, 9, 5, 0, 15, 4, 8, 6, 2, 10],
   [6, 15, 14, 9, 11, 3, 0, 8, 12, 2, 13, 7, 1, 4, 10, 5],
   [10, 2, 8, 4, 7, 6, 1, 5, 15, 11, 9, 14, 3, 12, 13, 0]]

/-- The BLAKE2s G mixing function acting on the 16-word work vector. -/
def gMix (v : List Nat) (a b c d x y : Nat) : List Nat :=
  let va := (v.getD a 0 + v.getD b 0 + x) % U32
  let vd := rotr ((v.getD d 0) ^^^ va) 16
  let vc := (v.getD c 0 + vd) % U32
  let vb := rotr ((v.getD b 0) ^^^ vc) 12
  let va2 := (va + vb + y) % U32
  let vd2 := rotr (vd ^^^ va2) 8
  let vc2 := (vc + vd2) % U32
  let vb2 := rotr (vb ^^^ vc2) 7
  (((v.set a va2).set b vb2).set c vc2).set d vd2

/-- One BLAKE2s round: eight G applications driven by a SIGMA row `s`. -/
def roundFn (m : List Nat) (v : List Nat) (s : List Nat) : List Nat :=
  let pick := fun i => m.getD (s.getD i 0) 0
  let v := gMix v 0 4 8 12 (pick 0) (pick 1)
  let v := gMix v 1 5 9 13 (pick 2) (pick 3)
  let v := gMix v 2 6 10 14 (pick 4) (pick 5)
  let v := gMix v 3 7 11 15 (pick 6) (pick 7)
  let v := gMix v 0 5 10 15 (pick 8) (pick 9)
  let v := gMix v 1 6 11 12 (pick 10) (pick 11)
  let v := gMix v 2 7 8 13 (pick 12) (pick 13)
  let v := gMix v 3 4 9 14 (pick 14) (pick 15)
  v

/-- The BLAKE2s compression function `F(h, m, t, f)`. -/
def compress (h : List Nat) (m : List Nat) (t : Nat) (last : Bool) : List Nat :=
  let v0 := h ++ IV
  let v1 := v0.set 12 ((v0.getD 12 0) ^^^ (t % U32))
  let v2 := v1.set 13 ((v1.getD 13 0) ^^^ ((t / U32) % U32))
  let v3 := if last then v2.set 14 ((v2.getD 14 0) ^^^ 0xFFFFFFFF) else v2
  let v := SIGMA.foldl (fun v s => roundFn m v s) v3
  (List.range 8).map (fun i => (h.getD i 0) ^^^ (v.getD i 0) ^^^ (v.getD (i + 8) 0))

/-- Decode a 64-byte block into 16 little-endian 32-bit words. -/
def leWords : List Nat → List Nat
  | b0 :: b1 :: b2 :: b3 :: rest =>
      (b0 % 256 + (b1 % 256) * 256 + (b2 % 256) * 65536 + (b3 % 256) * 16777216)
        :: leWords rest
  | _ => []

/-- Encode one 32-bit word as four little-endian bytes. -/
def wordLEBytes (w : Nat) : List Nat :=
  [w % 256, w / 256 % 256, w / 65536 % 256, w / 16777216 % 256]

/-- Structural worker for `blocks64`; the fuel is the message length, far
more than the block count, so it never runs out before the natural end. -/
def blocks64Go : Nat → List Nat → List (List Nat)
  | 0, l => [l ++ List.replicate (64 - l.length) 0]
  | fuel + 1, l =>
      if 64 < l.length then l.take 64 :: blocks64Go fuel (l.drop 64)
      else [l ++ List.replicate (64 - l.length) 0]

/-- Split the message into 64-byte blocks, zero-padding the last one
(an empty message yields a single all-zero block). -/
def blocks64 (l : List Nat) : List (List Nat) := blocks64Go l.length l

/-- Compress the blocks in order; `t` counts bytes fed so far, the final
block is flagged and uses the total message length as its counter. -/
def processBlocks (total : Nat) : List Nat → Nat → List (List Nat) → List Nat
  | h, _, [] => h
  | h, _, [blk] => compress h (leWords blk) total true
  | h, done, blk :: rest =>
      processBlocks total (compress h (leWords blk) (done + 64) false) (done + 64) rest

/-- BLAKE2s-256 of a byte list: unkeyed, 32-byte digest (parameter block
XORs `0x01010020` into `h0`), as produced by the `blake2` crate's
`Blake2s256`. -/
def hash (input : List Nat) : List Nat :=
  let h0 := IV.set 0 ((IV.getD 0 0) ^^^ 0x01010020)
  let hFinal := processBlocks input.length h0 0 (blocks64 input)
  (hFinal.map wordLEBytes).flatten

end Blake2s

/-- Function `get_blake2` from `utils.rs`: the BLAKE2s-256 digest of the chunk
(the `Ok` wrapper is vacuous in the source and is dropped here). -/
def get_blake2 (chunk : List Nat) : List Nat := Blake2s.hash chunk

/-- The `Signature` record from `sign.rs`. -/
structure Signature where
  index : Nat
  checksum : List Nat
  bytes : List Nat
deriving Repr, DecidableEq

/-- The `HashMap<u32, Signature>` keyed by weak hash, modelled as an
association list (`gen_sigs` never overwrites an existing key, so the
map operations used by the program are order-insensitive except for
`get_data`, whose behavior on duplicate indices is settled separately). -/
abbrev SigTable := List (Nat × Signature)

/-- Lookup `signatures.get(&weak_hash)` of the hash map. -/
def lookupSig (signatures : SigTable) (key : Nat) : Option Signature :=
  (signatures.find? (fun kv => kv.1 == key)).map (fun kv => kv.2)

/-- The weak hash computed by `add_next_sign`'s `match algorithm` arms:
a fresh hasher per chunk, `"fletcher"` picking Fletcher-32 and every
other string falling through to Adler-32. -/
def weakOfChunk (algorithm : String) (chunk : List Nat) : Nat :=
  if algorithm = "fletcher" then (Fletcher32.get_chunk_hash Fletcher32.new chunk).2
  else (Adler32.get_chunk_hash Adler32.new chunk).2

/-- Method `Signature::add_next_sign`: insert the chunk's signature unless its
weak hash is already present; an equal-bytes duplicate is ignored
(returns `false`), a differing-bytes collision is dropped and counted
(returns `true`). -/
def add_next_sign (algorithm : String) (index : Nat) (chunk : List Nat)
    (signatures : SigTable) : SigTable × Bool :=
  let weak_hash := weakOfChunk algorithm chunk
  let checksum := get_blake2 chunk
  let bytes := chunk
  match lookupSig signatures weak_hash with
  | some sign =>
      if bytes ≠ sign.bytes then (signatures, true) else (signatures, false)
  | none =>
      (signatures ++ [(weak_hash, { index := index, checksum := checksum, bytes := bytes })],
       false)

/-- Structural worker for `fullChunks`; the fuel is the buffer length,
which bounds the chunk count whenever the chunk size is positive. -/
def fullChunksGo (chunk_size : Nat) : Nat → List Nat → List (List Nat)
  | 0, _ => []
  | fuel + 1, buffer =>
      if 1 ≤ chunk_size ∧ chunk_size ≤ buffer.length then
        buffer.take chunk_size :: fullChunksGo chunk_size fuel (buffer.drop chunk_size)
      else []

/-- The chunks visited by `gen_sigs`' stride loop: `buffer[i..i+C]` for
`i = 0, C, 2C, ...` while `i + C <= buffer.len()`. -/
def fullChunks (chunk_size : Nat) (buffer : List Nat) : List (List Nat) :=
  fullChunksGo chunk_size buffer.length buffer

/-- The body of `gen_sigs`' loop: thread the signature index (incremented
for every visited chunk, dropped or not) and the collision counter. -/
def gen_sigs_go (algorithm : String) :
    List (List Nat) → Nat → SigTable → Nat → SigTable × Nat
  | [], _, signatures, collisions => (signatures, collisions)
  | chunk :: rest, idx, signatures, collisions =>
      let res := add_next_sign algorithm idx chunk signatures
      gen_sigs_go algorithm rest (idx + 1) res.1
        (collisions + (if res.2 then 1 else 0))

/-- Method `Signature::gen_sigs` on the old file's bytes: the signature table and
the collision count.  `none` models the `step_by(0)` panic when the chunk
size is zero. -/
def gen_sigs (buffer : List Nat) (chunk_size : Nat) (algorithm : String) :
    Option (SigTable × Nat) :=
  if chunk_size = 0 then none
  else some (gen_sigs_go algorithm (fullChunks chunk_size buffer) 0 [] 0)

/-- The `Delta` token enum from `delta.rs`: `I` a chunk index, `B` a raw
byte. -/
inductive Delta where
  | I (index : Nat)
  | B (byte : Nat)
deriving Repr, DecidableEq

/-- The `HashBlock` record from `delta.rs`. -/
structure HashBlock where
  index : Nat
  weak_hash : Nat
  bytes : List Nat
deriving Repr, DecidableEq

/-- The `for byte in &buffer[chunk_size..]` loop of
`calculate_rolling_hashes`: one rolling step and one `HashBlock` per
remaining byte. -/
def rollLoop (algo : Algo) : HashState → Nat → List Nat → List HashBlock
  | _, _, [] => []
  | st, idx, byte :: rest =>
      let r := algo.rollingHash st byte
      { index := idx + 1, weak_hash := r.2, bytes := r.1.current_window }
        :: rollLoop algo r.1 (idx + 1) rest

/-- Function `calculate_rolling_hashes`: hash the first chunk with a fresh hasher
(both call sites construct the hasher with `new()` just before the call),
then slide over the rest.  `none` models the panic of the unconditional
slice `&buffer[0..chunk_size]` when the buffer is shorter than one chunk. -/
def calculate_rolling_hashes (chunk_size : Nat) (algo : Algo) (buffer : List Nat) :
    Option (List HashBlock) :=
  if chunk_size ≤ buffer.length then
    let chunk := buffer.take chunk_size
    let r := algo.chunkHash algo.newState chunk
    some ({ index := 0, weak_hash := r.2, bytes := chunk }
      :: rollLoop algo r.1 0 (buffer.drop chunk_size))
  else none

/-- Junk `HashBlock` standing for an out-of-range `hashes[index]` access
(never reached from `gen_delta_from_file`; see the hash-length lemmas). -/
def junkBlock : HashBlock := { index := 0, weak_hash := 0, bytes := [] }

/-- The `while index < buffer.len()` loop of `gen_delta_from_file`.
`fuel` bounds the iteration count; the caller passes `buffer.len() + 1`,
which is enough whenever the chunk size is positive (with chunk size `0`
and a matching chunk the Rust loop never advances, i.e. diverges, which
the exhausted fuel models as `none`). -/
def deltaLoop (buffer : List Nat) (chunk_size : Nat) (hashes : List HashBlock)
    (signatures : SigTable) : Nat → Nat → Option (List Delta)
  | 0, _ => none
  | fuel + 1, index =>
      if index < buffer.length then
        if buffer.length - chunk_size < index then
          some ((buffer.drop index).map Delta.B)
        else
          let hb := hashes.getD index junkBlock
          let mtch := match lookupSig signatures hb.weak_hash with
            | some sign =>
                if sign.checksum = get_blake2 hb.bytes then some sign.index else none
            | none => none
          match mtch with
          | some i =>
              (deltaLoop buffer chunk_size hashes signatures fuel (index + chunk_size)).map
                (fun rest => Delta.I i :: rest)
          | none =>
              (deltaLoop buffer chunk_size hashes signatures fuel (index + 1)).map
                (fun rest => Delta.B (buffer.getD index 0) :: rest)
      else some []

/-- Function `gen_delta_from_file` on the new file's bytes (I/O and JSON output
dropped): compute every rolling hash, then scan. -/
def gen_delta_from_file (buffer : List Nat) (chunk_size : Nat) (algorithm : String)
    (signatures : SigTable) : Option (List Delta) :=
  match calculate_rolling_hashes chunk_size (algoOfString algorithm) buffer with
  | none => none
  | some hashes => deltaLoop buffer chunk_size hashes signatures (buffer.length + 1) 0

/-- Function `get_data` from `patch.rs`: the bytes of the first table entry whose
`index` field equals `i`. -/
def get_data (i : Nat) (signatures : SigTable) : Option (List Nat) :=
  (signatures.find? (fun kv => kv.2.index == i)).map (fun kv => kv.2.bytes)

/-- Function `patch_file_with_delta` (deserialization and file output dropped):
append a byte per `B` token and the looked-up chunk per `I` token;
`none` models the panic on an unknown index. -/
def patch_file_with_delta : List Delta → SigTable → Option (List Nat)
  | [], _ => some []
  | Delta.B b :: rest, signatures =>
      (patch_file_with_delta rest signatures).map (fun r => b :: r)
  | Delta.I i :: rest, signatures =>
      match get_data i signatures with
      | some data => (patch_file_with_delta rest signatures).map (fun r => data ++ r)
      | none => none

/-- Function `verify_args` from `main.rs`: default chunk size 4, default algorithm
`"adler"`. -/
def verify_args (chunk_size : Option Nat) (algorithm : Option String) : Nat × String :=
  (chunk_size.getD 4, algorithm.getD "adler")

/-- Function `algo_msg` from `main.rs`: panics (modelled `none`) when an algorithm
argument is provided and is neither `"adler"` nor `"fletcher"`. -/
def algo_msg (algorithm : Option String) : Option Unit :=
  match algorithm with
  | some algo => if algo = "adler" ∨ algo = "fletcher" then some () else none
  | none => some ()

/-- The `sign` subcommand after the file-existence check: `algo_msg`
runs before any hashing, then `gen_sign` calls `gen_sigs_save`. -/
def run_sign_command (file : List Nat) (chunk_size : Option Nat)
    (algorithm : Option String) : Option (SigTable × Nat) :=
  (algo_msg algorithm).bind (fun _ =>
    let args := verify_args chunk_size algorithm
    gen_sigs file args.1 args.2)

/-- The `delta` subcommand after the file-existence checks. -/
def run_delta_command (oldFile newFile : List Nat) (chunk_size : Option Nat)
    (algorithm : Option String) : Option (List Delta) :=
  (algo_msg algorithm).bind (fun _ =>
    let args := verify_args chunk_size algorithm
    (gen_sigs oldFile args.1 args.2).bind (fun sigs =>
      gen_delta_from_file newFile args.1 args.2 sigs.1))

/-- The `patch` subcommand after the file-existence checks (the delta
token stream stands for the already-deserialized delta file). -/
def run_patch_command (oldFile : List Nat) (delta : List Delta)
    (chunk_size : Option Nat) (algorithm : Option String) : Option (List Nat) :=
  (algo_msg algorithm).bind (fun _ =>
    let args := verify_args chunk_size algorithm
    (gen_sigs oldFile args.1 args.2).bind (fun sigs =>
      patch_file_with_delta delta sigs.1))

/-- Spec-side accumulator (from the spec, section 4.1): the sum of the
running `a` values over a window, starting from initial accumulator `a0`
(`a0 = 1` for Adler-32, `a0 = 0` for Fletcher-32); `b` of a full chunk is
this sum reduced mod M. -/
def weakAccumB (a0 : Nat) : List Nat → Nat
  | [] => 0
  | x :: rest => (a0 + x) + weakAccumB (a0 + x) rest

/-- Decidable strong-hash collision freedom between the table's entries
and every length-`C` window of `buffer`: equal BLAKE2s digests only for
equal bytes.  (True of any realistic input; BLAKE2s collisions are not
constructible.) -/
def blakeCollisionFree (signatures : SigTable) (buffer : List Nat) (C : Nat) : Bool :=
  signatures.all (fun kv => (List.range (buffer.length + 1 - C)).all (fun j =>
    (get_blake2 kv.2.bytes != get_blake2 ((buffer.drop j).take C)) ||
    (kv.2.bytes == (buffer.drop j).take C)))

/-- Decidable weak-hash injectivity on the chunk partition of the old
file: no two distinct chunks share a weak hash. -/
def chunksWeakInjective (O : List Nat) (C : Nat) (algorithm : String) : Bool :=
  (fullChunks C O).all (fun c1 => (fullChunks C O).all (fun c2 =>
    (weakOfChunk algorithm c1 != weakOfChunk algorithm c2) || (c1 == c2)))

/-- Decidable agreement of the rolling scan with fresh per-chunk hashing
at every chunk-aligned offset of `O` (rules out the wrapping-subtraction
divergence on the particular input). -/
def rollingMatchesFresh (O : List Nat) (C : Nat) (algorithm : String) : Bool :=
  match calculate_rolling_hashes C (algoOfString algorithm) O with
  | none => true
  | some hs => (List.range (O.length / C)).all (fun k =>
      (hs.getD (k * C) junkBlock).weak_hash ==
        weakOfChunk algorithm ((O.drop (k * C)).take C))

/-- Spec-side token semantics (spec, section 4.5): a `Literal` contributes
its byte, a `Match` contributes the chunk bytes of the entry carrying the
referenced index. -/
def resolveToken (signatures : SigTable) : Delta → List Nat
  | Delta.B b => [b]
  | Delta.I i => (get_data i signatures).getD []

/-- The byte string of the repo's known-answer test vector `"hello world"`. -/
def helloWorldBytes : List Nat := [104, 101, 108, 108, 111, 32, 119, 111, 114, 108, 100]

/-- Concrete old file for the round-trip witness. -/
def rtO : List Nat := [10, 20, 30, 40]
/-- Concrete new file (a rearrangement with one fresh byte). -/
def rtN : List Nat := [30, 40, 10, 20, 7]
/-- The signature table generated from `rtO` with `C = 2`, Adler-32. -/
def rtTable : SigTable := ((gen_sigs rtO 2 "adler").getD ([], 0)).1
/-- The collision count of that signature run. -/
def rtColl : Nat := ((gen_sigs rtO 2 "adler").getD ([], 0)).2
/-- Concrete old file for the self-delta witness. -/
def sdO : List Nat := [10, 20, 30, 40, 50]
/-- Its signature table with `C = 2`, Adler-32. -/
def sdTable : SigTable := ((gen_sigs sdO 2 "adler").getD ([], 0)).1
/-- Its collision count. -/
def sdColl : Nat := ((gen_sigs sdO 2 "adler").getD ([], 0)).2
/-- Old file whose second chunk weakly collides with its first: signing
drops it but still advances the index counter, leaving retained indices
`[0, 2]` with a gap at `1`. -/
def gapO : List Nat := [0, 2, 0, 1, 0, 1, 5, 5, 5]
/-- Its signature table with `C = 3`, Adler-32. -/
def gapTable : SigTable := ((gen_sigs gapO 3 "adler").getD ([], 0)).1
/-- Its collision count. -/
def gapColl : Nat := ((gen_sigs gapO 3 "adler").getD ([], 0)).2
/-- A one-entry table for the patcher witness. -/
def demoTable : SigTable :=
  [(99, { index := 0, checksum := [1], bytes := [7, 8] })]

set_option maxRecDepth 100000

/-! ## Generic lemmas about the table and the patcher -/

/-- A successful `HashMap::get` returns an entry of the table whose key is
the queried weak hash. -/
lemma lookupSig_eq_some_iff (signatures : SigTable) (key : Nat) (sig : Signature) :
    lookupSig signatures key = some sig ↔
      ∃ kv ∈ signatures, kv.1 = key ∧ kv.2 = sig ∧
        signatures.find? (fun kv => kv.1 == key) = some kv := by
  unfold lookupSig
  constructor
  · intro h
    rcases Option.map_eq_some'.mp h with ⟨kv, hfind, hkv⟩
    refine ⟨kv, List.mem_of_find?_eq_some hfind, ?_, hkv, hfind⟩
    have := List.find?_some hfind
    simpa using this
  · rintro ⟨kv, _, _, hkv, hfind⟩
    rw [hfind]
    simpa using hkv

/-- Appending entries to the table does not change a lookup that already
succeeds (the hash map is only ever extended with fresh keys). -/
lemma lookupSig_append_of_isSome (signatures extra : SigTable) (key : Nat)
    (h : (lookupSig signatures key).isSome) :
    lookupSig (signatures ++ extra) key = lookupSig signatures key := by
  unfold lookupSig at *
  rw [List.find?_append]
  cases hfind : signatures.find? (fun kv => kv.1 == key) with
  | none => rw [hfind] at h; simp at h
  | some kv => simp [Option.or]

/-- A lookup that fails on the table proper continues into the appended
entry. -/
lemma lookupSig_append_none (signatures : SigTable) (e : Nat × Signature) (key : Nat)
    (h : lookupSig signatures key = none) :
    lookupSig (signatures ++ [e]) key =
      (if e.1 == key then some e.2 else none) := by
  unfold lookupSig at *
  rw [List.find?_append]
  cases hfind : signatures.find? (fun kv => kv.1 == key) with
  | none =>
      by_cases hk : e.1 == key <;> simp [List.find?, hk, Option.or]
  | some kv => rw [hfind] at h; simp at h

/-- With pairwise-distinct `index` fields, `get_data` resolves a member
entry's index to exactly that entry's bytes. -/
lemma get_data_of_mem (signatures : SigTable) (kv : Nat × Signature)
    (hmem : kv ∈ signatures)
    (hdist : List.Pairwise (fun x y => x.2.index ≠ y.2.index) signatures) :
    get_data kv.2.index signatures = some kv.2.bytes := by
  induction signatures with
  | nil => cases hmem
  | cons hd tl ih =>
      rcases List.mem_cons.mp hmem with heq | hmem'
      · subst heq
        unfold get_data
        simp [List.find?]
      · have hne : hd.2.index ≠ kv.2.index :=
          (List.pairwise_cons.mp hdist).1 kv hmem'
        unfold get_data at *
        have : (hd.2.index == kv.2.index) = false := by
          simpa using hne
        simp only [List.find?, this]
        exact ih hmem' (List.pairwise_cons.mp hdist).2

/-- Lookup `get_data` fails exactly when no entry carries the queried index. -/
lemma get_data_eq_none (signatures : SigTable) (i : Nat)
    (h : ∀ kv ∈ signatures, kv.2.index ≠ i) :
    get_data i signatures = none := by
  unfold get_data
  have : signatures.find? (fun kv => kv.2.index == i) = none := by
    rw [List.find?_eq_none]
    intro kv hkv
    simpa using h kv hkv
  rw [this]
  rfl

/-- Patching a pure literal stream reproduces its bytes. -/
lemma patch_literals (l : List Nat) (signatures : SigTable) :
    patch_file_with_delta (l.map Delta.B) signatures = some l := by
  induction l with
  | nil => rfl
  | cons b rest ih => simp [patch_file_with_delta, ih]

/-! ## Window maintenance of the rolling scan

The window bookkeeping of `get_rolling_hash` (push the new byte, drop the
oldest) is independent of the accumulator arithmetic, so the `bytes`
stored in each `HashBlock` are the true sliding windows of the buffer
even on inputs where the accumulator subtractions wrap. -/

/-- One slide pushes the new byte and drops the oldest window byte. -/
lemma rollingHash_window (algo : Algo) (s : HashState) (byte : Nat) :
    (algo.rollingHash s byte).1.current_window =
      (s.current_window ++ [byte]).tail := by
  cases algo <;> rfl

/-- Sliding a full window one step to the right: dropping the oldest byte
of `buffer[j..j+C]` and appending `buffer[j+C]` yields `buffer[j+1..j+1+C]`. -/
lemma slice_shift (buffer : List Nat) (j C : Nat) (hC : 1 ≤ C)
    (hj : j + C < buffer.length) :
    (((buffer.drop j).take C) ++ [buffer.getD (j + C) 0]).tail =
      (buffer.drop (j + 1)).take C := by
  obtain ⟨c, rfl⟩ : ∃ c, C = c + 1 := ⟨C - 1, by omega⟩
  have hjlt : j < buffer.length := by omega
  have hdrop : buffer.drop j = buffer[j] :: buffer.drop (j + 1) :=
    List.drop_eq_getElem_cons hjlt
  have hL : (buffer.drop j).take (c + 1) = buffer[j] :: (buffer.drop (j + 1)).take c := by
    rw [hdrop]
    rfl
  have hR : (buffer.drop (j + 1)).take (c + 1) =
      (buffer.drop (j + 1)).take c ++ [buffer.getD (j + (c + 1)) 0] := by
    rw [List.take_succ]
    congr 1
    rw [List.getElem?_drop]
    have he : j + 1 + c = j + (c + 1) := by omega
    rw [he]
    simp [List.getD, List.getElem?_eq_getElem (show j + (c + 1) < buffer.length by omega)]
  rw [hL, hR]
  rfl

/-- Loop `rollLoop` produces one block per remaining byte. -/
lemma rollLoop_length (algo : Algo) :
    ∀ (rest : List Nat) (st : HashState) (idx : Nat),
      (rollLoop algo st idx rest).length = rest.length := by
  intro rest
  induction rest with
  | nil => intro st idx; rfl
  | cons byte rest ih => intro st idx; simp [rollLoop, ih]

/-- Each block of `rollLoop` stores the true window of the buffer at its
position, provided the incoming state's window is the slice just before
the remaining bytes. -/
lemma rollLoop_bytes (algo : Algo) (buffer : List Nat) (C : Nat) (hC : 1 ≤ C) :
    ∀ (rest : List Nat) (j : Nat) (st : HashState),
      rest = buffer.drop (j + C) →
      j + C ≤ buffer.length →
      st.current_window = (buffer.drop j).take C →
      ∀ m, m < rest.length →
        ((rollLoop algo st j rest).getD m junkBlock).bytes =
          (buffer.drop (j + 1 + m)).take C := by
  intro rest
  induction rest with
  | nil => intro j st _ _ _ m hm; cases hm
  | cons byte rest' ih =>
      intro j st hrest hlen hwin m hm
      have hjC : j + C < buffer.length := by
        by_contra hcon
        have hnil : buffer.drop (j + C) = [] := List.drop_eq_nil_of_le (by omega)
        rw [hnil] at hrest
        exact absurd hrest (List.cons_ne_nil byte rest')
      have hcons : buffer.drop (j + C) = buffer[j + C] :: buffer.drop (j + C + 1) :=
        List.drop_eq_getElem_cons hjC
      rw [hcons] at hrest
      have hbyte : byte = buffer.getD (j + C) 0 := by
        have hg : buffer.getD (j + C) 0 = buffer[j + C] :=
          List.getD_eq_getElem buffer 0 hjC
      
        rw [hg]
        exact (List.cons_eq_cons.mp hrest).1
      have hrest' : rest' = buffer.drop ((j + 1) + C) := by
        have h2 := (List.cons_eq_cons.mp hrest).2
        rw [h2]
        congr 1
        omega
      have hwin' : ((algo.rollingHash st byte).1).current_window =
          (buffer.drop (j + 1)).take C := by
        rw [rollingHash_window, hwin, hbyte]
        exact slice_shift buffer j C hC hjC
      match m with
      | 0 =>
          simp only [rollLoop, List.getD_cons_zero]
          simpa using hwin'
      | m' + 1 =>
          simp only [rollLoop, List.getD_cons_succ]
          have hstep := ih (j + 1) (algo.rollingHash st byte).1 hrest' (by omega) hwin' m'
            (by simp at hm; omega)
          have he : (j + 1) + 1 + m' = j + 1 + (m' + 1) := by omega
          rw [he] at hstep
          exact hstep

/-- Function `calculate_rolling_hashes` succeeds exactly on buffers of at least one
chunk (otherwise the slice `&buffer[0..chunk_size]` panics). -/
lemma calculate_rolling_hashes_isSome (chunk_size : Nat) (algo : Algo)
    (buffer : List Nat) :
    (calculate_rolling_hashes chunk_size algo buffer).isSome ↔
      chunk_size ≤ buffer.length := by
  unfold calculate_rolling_hashes
  by_cases h : chunk_size ≤ buffer.length <;> simp [h]

/-- The block list has one entry per window position. -/
lemma calculate_rolling_hashes_length (chunk_size : Nat) (algo : Algo)
    (buffer : List Nat) (hs : List HashBlock)
    (h : calculate_rolling_hashes chunk_size algo buffer = some hs) :
    hs.length = buffer.length - chunk_size + 1 := by
  unfold calculate_rolling_hashes at h
  by_cases hle : chunk_size ≤ buffer.length
  · simp only [if_pos hle] at h
    cases h
    simp [rollLoop_length]
  · simp [if_neg hle] at h

/-- Block `i` of the rolling scan stores window `buffer[i..i+C]`. -/
lemma calculate_rolling_hashes_bytes (chunk_size : Nat) (algo : Algo)
    (buffer : List Nat) (hs : List HashBlock) (hC : 1 ≤ chunk_size)
    (h : calculate_rolling_hashes chunk_size algo buffer = some hs) :
    ∀ i, i + chunk_size ≤ buffer.length →
      (hs.getD i junkBlock).bytes = (buffer.drop i).take chunk_size := by
  intro i hi
  unfold calculate_rolling_hashes at h
  have hle : chunk_size ≤ buffer.length := by omega
  simp only [if_pos hle] at h
  cases h
  match i with
  | 0 => simp
  | m + 1 =>
      simp only [List.getD_cons_succ]
      have hwin : ((algo.chunkHash algo.newState (buffer.take chunk_size)).1).current_window
          = (buffer.drop 0).take chunk_size := by
        cases algo <;> rfl
      have hstep := rollLoop_bytes algo buffer chunk_size hC (buffer.drop chunk_size) 0
        (algo.chunkHash algo.newState (buffer.take chunk_size)).1
        (by simp) (by omega) hwin m (by simp; omega)
      have he : 0 + 1 + m = m + 1 := by omega
      rw [he] at hstep
      exact hstep

/-! ## The chunk partition walked by `gen_sigs` -/

/-- The fuel of `fullChunksGo` is irrelevant once it covers the buffer
length. -/
lemma fullChunksGo_congr (chunk_size : Nat) :
    ∀ (f1 f2 : Nat) (buffer : List Nat), buffer.length ≤ f1 → buffer.length ≤ f2 →
      fullChunksGo chunk_size f1 buffer = fullChunksGo chunk_size f2 buffer := by
  intro f1
  induction f1 with
  | zero =>
      intro f2 buffer h1 _
      have hz : buffer.length = 0 := by omega
      cases f2 with
      | zero => rfl
      | succ g =>
          simp only [fullChunksGo]
          rw [if_neg (by omega)]
  | succ f ih =>
      intro f2 buffer h1 h2
      cases f2 with
      | zero =>
          have hz : buffer.length = 0 := by omega
          simp only [fullChunksGo]
          rw [if_neg (by omega)]
      | succ g =>
          simp only [fullChunksGo]
          by_cases hcond : 1 ≤ chunk_size ∧ chunk_size ≤ buffer.length
          · rw [if_pos hcond, if_pos hcond]
            have hlen : (buffer.drop chunk_size).length ≤ f := by
              simp only [List.length_drop]; omega
            have hlen' : (buffer.drop chunk_size).length ≤ g := by
              simp only [List.length_drop]; omega
            rw [ih g (buffer.drop chunk_size) hlen hlen']
          · rw [if_neg hcond, if_neg hcond]

/-- The defining equation of `fullChunks`, mirroring one iteration of the
stride loop. -/
lemma fullChunks_eq (chunk_size : Nat) (buffer : List Nat) :
    fullChunks chunk_size buffer =
      if 1 ≤ chunk_size ∧ chunk_size ≤ buffer.length then
        buffer.take chunk_size :: fullChunks chunk_size (buffer.drop chunk_size)
      else [] := by
  by_cases hcond : 1 ≤ chunk_size ∧ chunk_size ≤ buffer.length
  · rw [if_pos hcond]
    obtain ⟨n, hlen⟩ : ∃ n, buffer.length = n + 1 := ⟨buffer.length - 1, by omega⟩
    show fullChunksGo chunk_size buffer.length buffer = _
    rw [hlen]
    simp only [fullChunksGo]
    rw [if_pos hcond]
    congr 1
    show fullChunksGo chunk_size n (buffer.drop chunk_size) =
      fullChunksGo chunk_size (buffer.drop chunk_size).length (buffer.drop chunk_size)
    apply fullChunksGo_congr
    · simp only [List.length_drop]; omega
    · rfl
  · rw [if_neg hcond]
    show fullChunksGo chunk_size buffer.length buffer = []
    cases hn : buffer.length with
    | zero => rfl
    | succ n =>
        simp only [fullChunksGo]
        rw [if_neg hcond]

/-- Loop `gen_sigs` visits exactly `⌊|O| / C⌋` chunks. -/
lemma fullChunks_length (chunk_size : Nat) (hC : 1 ≤ chunk_size) :
    ∀ (n : Nat) (buffer : List Nat), buffer.length ≤ n →
      (fullChunks chunk_size buffer).length = buffer.length / chunk_size := by
  intro n
  induction n with
  | zero =>
      intro buffer h
      rw [fullChunks_eq, if_neg (by omega)]
      have : buffer.length = 0 := by omega
      rw [this]
      simp
  | succ n ih =>
      intro buffer h
      rw [fullChunks_eq]
      by_cases hcond : 1 ≤ chunk_size ∧ chunk_size ≤ buffer.length
      · rw [if_pos hcond]
        have hrec := ih (buffer.drop chunk_size) (by simp only [List.length_drop]; omega)
        simp only [List.length_cons, hrec, List.length_drop]
        rw [Nat.div_eq buffer.length chunk_size, if_pos (by omega)]
      · rw [if_neg hcond]
        have : buffer.length / chunk_size = 0 := Nat.div_eq_of_lt (by omega)
        rw [this]
        rfl

/-- Chunk `k` of the partition is `buffer[k*C .. k*C+C]`. -/
lemma fullChunks_getD (chunk_size : Nat) (hC : 1 ≤ chunk_size) :
    ∀ (n : Nat) (buffer : List Nat), buffer.length ≤ n →
      ∀ k, k < (fullChunks chunk_size buffer).length →
        (fullChunks chunk_size buffer).getD k [] =
          (buffer.drop (k * chunk_size)).take chunk_size := by
  intro n
  induction n with
  | zero =>
      intro buffer h k hk
      rw [fullChunks_eq, if_neg (by omega)] at hk
      cases hk
  | succ n ih =>
      intro buffer h k hk
      rw [fullChunks_eq] at hk ⊢
      by_cases hcond : 1 ≤ chunk_size ∧ chunk_size ≤ buffer.length
      · rw [if_pos hcond] at hk ⊢
        match k with
        | 0 => simp
        | k' + 1 =>
            simp only [List.getD_cons_succ]
            have hrec := ih (buffer.drop chunk_size) (by simp only [List.length_drop]; omega)
              k' (by simpa using hk)
            rw [hrec, List.drop_drop]
            congr 2
            ring
      · rw [if_neg hcond] at hk
        cases hk

/-! ## Invariants of signature-table construction -/

/-- Well-formedness of one table entry relative to the chunk-indexing
function `A` and an index bound. -/
def entryWF (A : Nat → List Nat) (algorithm : String) (bound : Nat)
    (kv : Nat × Signature) : Prop :=
  kv.2.checksum = get_blake2 kv.2.bytes ∧
  kv.2.bytes = A kv.2.index ∧
  kv.2.index < bound ∧
  kv.1 = weakOfChunk algorithm kv.2.bytes

lemma entryWF_mono (A : Nat → List Nat) (algorithm : String) (b1 b2 : Nat)
    (kv : Nat × Signature) (h : entryWF A algorithm b1 kv) (hb : b1 ≤ b2) :
    entryWF A algorithm b2 kv :=
  ⟨h.1, h.2.1, Nat.lt_of_lt_of_le h.2.2.1 hb, h.2.2.2⟩

/-- Method `add_next_sign` either leaves the table unchanged (weak hash already
present) or appends exactly one well-formed fresh-keyed entry. -/
lemma add_next_sign_cases (algorithm : String) (idx : Nat) (c : List Nat)
    (table : SigTable) :
    (∃ sig, lookupSig table (weakOfChunk algorithm c) = some sig ∧
        (add_next_sign algorithm idx c table).1 = table) ∨
    (lookupSig table (weakOfChunk algorithm c) = none ∧
        (add_next_sign algorithm idx c table).1 = table ++
          [(weakOfChunk algorithm c,
            { index := idx, checksum := get_blake2 c, bytes := c })]) := by
  unfold add_next_sign
  cases hl : lookupSig table (weakOfChunk algorithm c) with
  | some sig =>
      left
      refine ⟨sig, rfl, ?_⟩
      by_cases hb : c ≠ sig.bytes <;> simp [hl, hb]
  | none =>
      right
      refine ⟨rfl, ?_⟩
      simp [hl]

/-- The signature loop preserves entry well-formedness and pairwise-distinct
indices: visited chunks enter with the running index, which advances for
every chunk whether or not it is retained. -/
lemma gen_sigs_go_wf (algorithm : String) (A : Nat → List Nat) :
    ∀ (rest : List (List Nat)) (idx : Nat) (table : SigTable) (coll : Nat),
      (∀ k, k < rest.length → rest.getD k [] = A (idx + k)) →
      (∀ kv ∈ table, entryWF A algorithm idx kv) →
      List.Pairwise (fun x y => x.2.index ≠ y.2.index) table →
      (∀ kv ∈ (gen_sigs_go algorithm rest idx table coll).1,
          entryWF A algorithm (idx + rest.length) kv) ∧
      List.Pairwise (fun x y => x.2.index ≠ y.2.index)
        (gen_sigs_go algorithm rest idx table coll).1 := by
  intro rest
  induction rest with
  | nil =>
      intro idx table coll _ hwf hdist
      exact ⟨fun kv hkv => entryWF_mono A algorithm idx _ kv (hwf kv hkv) (by simp),
        hdist⟩
  | cons c rest' ih =>
      intro idx table coll hrest hwf hdist
      have hc : c = A idx := by
        have := hrest 0 (by simp)
        simpa using this
      have hrest' : ∀ k, k < rest'.length → rest'.getD k [] = A (idx + 1 + k) := by
        intro k hk
        have := hrest (k + 1) (by simp; omega)
        simp only [List.getD_cons_succ] at this
        rw [this]
        congr 1
        omega
      have hstep : ∀ kv ∈ (add_next_sign algorithm idx c table).1,
            entryWF A algorithm (idx + 1) kv := by
        rcases add_next_sign_cases algorithm idx c table with ⟨sig, _, heq⟩ | ⟨_, heq⟩
        · rw [heq]
          exact fun kv hkv => entryWF_mono A algorithm idx _ kv (hwf kv hkv) (by omega)
        · rw [heq]
          intro kv hkv
          rcases List.mem_append.mp hkv with hkv | hkv
          · exact entryWF_mono A algorithm idx _ kv (hwf kv hkv) (by omega)
          · have : kv = (weakOfChunk algorithm c,
                { index := idx, checksum := get_blake2 c, bytes := c }) := by
              simpa using hkv
            subst this
            refine ⟨rfl, ?_, Nat.lt_succ_self idx, ?_⟩
            · simpa using hc
            · simp [hc]
      have hdist' : List.Pairwise (fun x y => x.2.index ≠ y.2.index)
            (add_next_sign algorithm idx c table).1 := by
        rcases add_next_sign_cases algorithm idx c table with ⟨sig, _, heq⟩ | ⟨_, heq⟩
        · rw [heq]; exact hdist
        · rw [heq]
          rw [List.pairwise_append]
          refine ⟨hdist, List.pairwise_singleton _ _, ?_⟩
          intro x hx y hy
          have : y = (weakOfChunk algorithm c,
              { index := idx, checksum := get_blake2 c, bytes := c }) := by
            simpa using hy
          subst this
          have hxlt := (hwf x hx).2.2.1
          show x.2.index ≠ idx
          omega
      have := ih (idx + 1) (add_next_sign algorithm idx c table).1
        (coll + (if (add_next_sign algorithm idx c table).2 then 1 else 0))
        hrest' hstep hdist'
      constructor
      · intro kv hkv
        have hwf' := this.1 kv (by simpa [gen_sigs_go] using hkv)
        exact entryWF_mono A algorithm _ _ kv hwf' (by simp; omega)
      · have := this.2
        simpa [gen_sigs_go] using this

/-- The signature loop never disturbs a key that can already be looked up. -/
lemma gen_sigs_go_preserve (algorithm : String) :
    ∀ (rest : List (List Nat)) (idx : Nat) (table : SigTable) (coll : Nat) (key : Nat),
      (lookupSig table key).isSome →
      lookupSig (gen_sigs_go algorithm rest idx table coll).1 key =
        lookupSig table key := by
  intro rest
  induction rest with
  | nil => intro idx table coll key _; rfl
  | cons c rest' ih =>
      intro idx table coll key hsome
      have hpres : lookupSig (add_next_sign algorithm idx c table).1 key =
          lookupSig table key := by
        rcases add_next_sign_cases algorithm idx c table with ⟨sig, _, heq⟩ | ⟨_, heq⟩
        · rw [heq]
        · rw [heq]
          exact lookupSig_append_of_isSome table _ key hsome
      have hsome' : (lookupSig (add_next_sign algorithm idx c table).1 key).isSome := by
        rw [hpres]; exact hsome
      have := ih (idx + 1) (add_next_sign algorithm idx c table).1
        (coll + (if (add_next_sign algorithm idx c table).2 then 1 else 0)) key hsome'
      calc lookupSig (gen_sigs_go algorithm (c :: rest') idx table coll).1 key
          = lookupSig (gen_sigs_go algorithm rest' (idx + 1)
              (add_next_sign algorithm idx c table).1
              (coll + (if (add_next_sign algorithm idx c table).2 then 1 else 0))).1 key := rfl
        _ = lookupSig (add_next_sign algorithm idx c table).1 key := this
        _ = lookupSig table key := hpres

/-- Under weak-hash injectivity on the chunk family, every visited chunk
can be looked up in the final table by its weak hash, and the entry found
holds exactly that chunk's bytes (a byte-equal duplicate resolves to the
first occurrence's entry). -/
lemma gen_sigs_go_complete (algorithm : String) (A : Nat → List Nat) (total : Nat)
    (Hinj : ∀ i j, i < total → j < total →
      weakOfChunk algorithm (A i) = weakOfChunk algorithm (A j) → A i = A j) :
    ∀ (rest : List (List Nat)) (idx : Nat) (table : SigTable) (coll : Nat),
      idx + rest.length ≤ total →
      (∀ k, k < rest.length → rest.getD k [] = A (idx + k)) →
      (∀ kv ∈ table, entryWF A algorithm idx kv) →
      ∀ c ∈ rest, ∃ sig,
        lookupSig (gen_sigs_go algorithm rest idx table coll).1
          (weakOfChunk algorithm c) = some sig ∧ sig.bytes = c := by
  intro rest
  induction rest with
  | nil => intro idx table coll _ _ _ c hc; cases hc
  | cons c0 rest' ih =>
      intro idx table coll htot hrest hwf c hc
      have hc0 : c0 = A idx := by
        have := hrest 0 (by simp)
        simpa using this
      have hrest' : ∀ k, k < rest'.length → rest'.getD k [] = A (idx + 1 + k) := by
        intro k hk
        have := hrest (k + 1) (by simp; omega)
        simp only [List.getD_cons_succ] at this
        rw [this]
        congr 1
        omega
      have hwf' : ∀ kv ∈ (add_next_sign algorithm idx c0 table).1,
            entryWF A algorithm (idx + 1) kv := by
        rcases add_next_sign_cases algorithm idx c0 table with ⟨sig, _, heq⟩ | ⟨_, heq⟩
        · rw [heq]
          exact fun kv hkv => entryWF_mono A algorithm idx _ kv (hwf kv hkv) (by omega)
        · rw [heq]
          intro kv hkv
          rcases List.mem_append.mp hkv with hkv | hkv
          · exact entryWF_mono A algorithm idx _ kv (hwf kv hkv) (by omega)
          · have : kv = (weakOfChunk algorithm c0,
                { index := idx, checksum := get_blake2 c0, bytes := c0 }) := by
              simpa using hkv
            subst this
            exact ⟨rfl, by simpa using hc0, Nat.lt_succ_self idx, by simp [hc0]⟩
      -- the table after the step can already resolve chunk c0
      have hstep : ∃ sig,
          lookupSig (add_next_sign algorithm idx c0 table).1
            (weakOfChunk algorithm c0) = some sig ∧ sig.bytes = c0 := by
        rcases add_next_sign_cases algorithm idx c0 table with ⟨sig, hl, heq⟩ | ⟨hl, heq⟩
        · refine ⟨sig, by rw [heq]; exact hl, ?_⟩
          rcases (lookupSig_eq_some_iff table (weakOfChunk algorithm c0) sig).mp hl
            with ⟨kv, hmem, hkey, hkv, _⟩
          have hwfkv := hwf kv hmem
          have hkey' : weakOfChunk algorithm (A kv.2.index) = weakOfChunk algorithm (A idx) := by
            have h1 := hwfkv.2.2.2
            rw [hwfkv.2.1] at h1
            rw [← hc0, ← h1, hkey, hc0]
          have hbnd : kv.2.index < total := by
            have := hwfkv.2.2.1
            omega
          have := Hinj kv.2.index idx hbnd (by simp at htot; omega) hkey'
          rw [← hkv, hwfkv.2.1, this, ← hc0]
        · refine ⟨{ index := idx, checksum := get_blake2 c0, bytes := c0 }, ?_, rfl⟩
          rw [heq, lookupSig_append_none table _ _ hl]
          simp
      rcases List.mem_cons.mp hc with rfl | hc'
      · rcases hstep with ⟨sig, hl, hb⟩
        refine ⟨sig, ?_, hb⟩
        have hpres := gen_sigs_go_preserve algorithm rest' (idx + 1)
          (add_next_sign algorithm idx c table).1
          (coll + (if (add_next_sign algorithm idx c table).2 then 1 else 0))
          (weakOfChunk algorithm c) (by rw [hl]; rfl)
        calc lookupSig (gen_sigs_go algorithm (c :: rest') idx table coll).1
              (weakOfChunk algorithm c)
            = lookupSig (gen_sigs_go algorithm rest' (idx + 1)
                (add_next_sign algorithm idx c table).1
                (coll + (if (add_next_sign algorithm idx c table).2 then 1 else 0))).1
                (weakOfChunk algorithm c) := rfl
          _ = some sig := by rw [hpres, hl]
      · have := ih (idx + 1) (add_next_sign algorithm idx c0 table).1
          (coll + (if (add_next_sign algorithm idx c0 table).2 then 1 else 0))
          (by simp at htot; omega) hrest' hwf' c hc'
        exact this

/-- Unfolds a successful `gen_sigs` to its loop over the chunk partition. -/
lemma gen_sigs_eq_go (O : List Nat) (C : Nat) (algorithm : String)
    (table : SigTable) (collisions : Nat) (hC : 1 ≤ C)
    (h : gen_sigs O C algorithm = some (table, collisions)) :
    gen_sigs_go algorithm (fullChunks C O) 0 [] 0 = (table, collisions) := by
  unfold gen_sigs at h
  rw [if_neg (by omega)] at h
  exact Option.some.inj h

/-- Master well-formedness of a generated signature table: every entry is
the BLAKE2s-checksummed chunk of `O` at offset `index * C`, and indices
are pairwise distinct. -/
lemma gen_sigs_wf (O : List Nat) (C : Nat) (algorithm : String)
    (table : SigTable) (collisions : Nat) (hC : 1 ≤ C)
    (h : gen_sigs O C algorithm = some (table, collisions)) :
    (∀ kv ∈ table,
        kv.2.checksum = get_blake2 kv.2.bytes ∧
        kv.2.bytes = (O.drop (kv.2.index * C)).take C ∧
        kv.2.index * C + C ≤ O.length ∧
        kv.1 = weakOfChunk algorithm kv.2.bytes) ∧
    List.Pairwise (fun x y => x.2.index ≠ y.2.index) table := by
  have hgo := gen_sigs_eq_go O C algorithm table collisions hC h
  have hrest : ∀ k, k < (fullChunks C O).length →
      (fullChunks C O).getD k [] = (O.drop (k * C)).take C := by
    intro k hk
    have := fullChunks_getD C hC O.length O (le_refl _) k hk
    simpa using this
  have hmain := gen_sigs_go_wf algorithm (fun k => (O.drop (k * C)).take C)
    (fullChunks C O) 0 [] 0 (by simpa using hrest) (by intro kv hkv; cases hkv)
    List.Pairwise.nil
  rw [hgo] at hmain
  have hlen : (fullChunks C O).length = O.length / C :=
    fullChunks_length C hC O.length O (le_refl _)
  refine ⟨?_, hmain.2⟩
  intro kv hkv
  have hwf := hmain.1 kv hkv
  have hidx : kv.2.index < O.length / C := by
    have := hwf.2.2.1
    omega
  have hbound : kv.2.index * C + C ≤ O.length := by
    have h1 : kv.2.index + 1 ≤ O.length / C := by omega
    have h2 : (kv.2.index + 1) * C ≤ (O.length / C) * C :=
      Nat.mul_le_mul_right C h1
    have h3 : (O.length / C) * C ≤ O.length := Nat.div_mul_le_self O.length C
    have h4 : (kv.2.index + 1) * C = kv.2.index * C + C := by ring
    omega
  exact ⟨hwf.1, hwf.2.1, hbound, hwf.2.2.2⟩

/-- Master completeness: when the weak hash is injective on the chunks of
`O`, every chunk resolves through the generated table to its own bytes. -/
lemma gen_sigs_complete (O : List Nat) (C : Nat) (algorithm : String)
    (table : SigTable) (collisions : Nat) (hC : 1 ≤ C)
    (h : gen_sigs O C algorithm = some (table, collisions))
    (Hinj : ∀ c1 ∈ fullChunks C O, ∀ c2 ∈ fullChunks C O,
      weakOfChunk algorithm c1 = weakOfChunk algorithm c2 → c1 = c2) :
    ∀ c ∈ fullChunks C O, ∃ sig,
      lookupSig table (weakOfChunk algorithm c) = some sig ∧ sig.bytes = c := by
  have hgo := gen_sigs_eq_go O C algorithm table collisions hC h
  have hrest : ∀ k, k < (fullChunks C O).length →
      (fullChunks C O).getD k [] = (O.drop (k * C)).take C := by
    intro k hk
    have := fullChunks_getD C hC O.length O (le_refl _) k hk
    simpa using this
  have hmem : ∀ k, k < (fullChunks C O).length →
      (O.drop (k * C)).take C ∈ fullChunks C O := by
    intro k hk
    rw [← hrest k hk]
    rw [List.getD_eq_getElem _ _ hk]
    exact List.getElem_mem hk
  have hinj' : ∀ i j, i < (fullChunks C O).length → j < (fullChunks C O).length →
      weakOfChunk algorithm ((O.drop (i * C)).take C) =
        weakOfChunk algorithm ((O.drop (j * C)).take C) →
      (O.drop (i * C)).take C = (O.drop (j * C)).take C := by
    intro i j hi hj hw
    exact Hinj _ (hmem i hi) _ (hmem j hj) hw
  have hmain := gen_sigs_go_complete algorithm (fun k => (O.drop (k * C)).take C)
    (fullChunks C O).length hinj' (fullChunks C O) 0 [] 0 (by omega)
    (by simpa using hrest) (by intro kv hkv; cases hkv)
  rw [hgo] at hmain
  exact hmain

/-! ## Round trip of the delta scan -/

/-- Core invariant of `gen_delta_from_file`'s scan: whatever the weak-hash
values are, every emitted token patches back to the remaining buffer,
because a `Match` is only emitted after the strong checksum of the true
window is matched against the entry's strong checksum. -/
lemma deltaLoop_roundtrip (buffer : List Nat) (C : Nat) (hashes : List HashBlock)
    (table : SigTable) (hC : 1 ≤ C) (hCb : C ≤ buffer.length)
    (Hbytes : ∀ i, i + C ≤ buffer.length →
      (hashes.getD i junkBlock).bytes = (buffer.drop i).take C)
    (Hck : ∀ kv ∈ table, kv.2.checksum = get_blake2 kv.2.bytes)
    (Hdist : List.Pairwise (fun x y => x.2.index ≠ y.2.index) table)
    (Hstrong : ∀ kv ∈ table, ∀ j, j + C ≤ buffer.length →
      get_blake2 kv.2.bytes = get_blake2 ((buffer.drop j).take C) →
      kv.2.bytes = (buffer.drop j).take C) :
    ∀ (fuel idx : Nat), idx ≤ buffer.length → buffer.length - idx < fuel →
      ∃ ts, deltaLoop buffer C hashes table fuel idx = some ts ∧
        patch_file_with_delta ts table = some (buffer.drop idx) := by
  intro fuel
  induction fuel with
  | zero => intro idx _ hf; omega
  | succ fuel ih =>
      intro idx hidx hfuel
      by_cases hlt : idx < buffer.length
      · by_cases htail : buffer.length - C < idx
        · refine ⟨(buffer.drop idx).map Delta.B, ?_, patch_literals _ table⟩
          simp only [deltaLoop, if_pos hlt, if_pos htail]
        · have hidxC : idx + C ≤ buffer.length := by omega
          have hbytes := Hbytes idx hidxC
          have hconsD : buffer.getD idx 0 :: buffer.drop (idx + 1) = buffer.drop idx := by
            rw [List.getD_eq_getElem _ _ hlt]
            exact (List.drop_eq_getElem_cons hlt).symm
          cases hl : lookupSig table (hashes.getD idx junkBlock).weak_hash with
          | some sign =>
              by_cases hck : sign.checksum = get_blake2 (hashes.getD idx junkBlock).bytes
              · obtain ⟨kv, hmem, hkey, hkv, _⟩ := (lookupSig_eq_some_iff _ _ _).mp hl
                have hsb : sign.bytes = (buffer.drop idx).take C := by
                  have h1 : get_blake2 sign.bytes = get_blake2 ((buffer.drop idx).take C) := by
                    rw [← hbytes, ← hck]
                    rw [← hkv]
                    exact (Hck kv hmem).symm
                  have h2 := Hstrong kv hmem idx hidxC (by rw [hkv]; exact h1)
                  rw [hkv] at h2
                  exact h2
                obtain ⟨ts', hts', hp'⟩ := ih (idx + C) (by omega) (by omega)
                refine ⟨Delta.I sign.index :: ts', ?_, ?_⟩
                · simp only [deltaLoop, if_pos hlt, if_neg htail, hl, if_pos hck, hts',
                    Option.map_some']
                · have hget : get_data sign.index table = some sign.bytes := by
                    have h3 := get_data_of_mem table kv hmem Hdist
                    rw [hkv] at h3
                    exact h3
                  have hsplit : (buffer.drop idx).take C ++ buffer.drop (idx + C) =
                      buffer.drop idx := by
                    have h2 : (buffer.drop idx).drop C = buffer.drop (idx + C) := by
                      rw [List.drop_drop]
                    rw [← h2]
                    exact List.take_append_drop C (buffer.drop idx)
                  have hres : sign.bytes ++ buffer.drop (idx + C) = buffer.drop idx := by
                    rw [hsb]
                    exact hsplit
                  simp only [patch_file_with_delta, hget, hp', Option.map_some']
                  rw [hres]
              · obtain ⟨ts', hts', hp'⟩ := ih (idx + 1) (by omega) (by omega)
                refine ⟨Delta.B (buffer.getD idx 0) :: ts', ?_, ?_⟩
                · simp only [deltaLoop, if_pos hlt, if_neg htail, hl, if_neg hck, hts',
                    Option.map_some']
                · simp only [patch_file_with_delta, hp', Option.map_some']
                  rw [hconsD]
          | none =>
              obtain ⟨ts', hts', hp'⟩ := ih (idx + 1) (by omega) (by omega)
              refine ⟨Delta.B (buffer.getD idx 0) :: ts', ?_, ?_⟩
              · simp only [deltaLoop, if_pos hlt, if_neg htail, hl, hts', Option.map_some']
              · simp only [patch_file_with_delta, hp', Option.map_some']
                rw [hconsD]
      · have hend : idx = buffer.length := by omega
        refine ⟨[], ?_, ?_⟩
        · simp only [deltaLoop, if_neg hlt]
        · subst hend
          rw [List.drop_length]
          rfl

/-- Unpacks the decidable collision-freedom check into its meaning. -/
lemma blakeCollisionFree_spec (signatures : SigTable) (buffer : List Nat) (C : Nat)
    (h : blakeCollisionFree signatures buffer C = true) :
    ∀ kv ∈ signatures, ∀ j, j + C ≤ buffer.length →
      get_blake2 kv.2.bytes = get_blake2 ((buffer.drop j).take C) →
      kv.2.bytes = (buffer.drop j).take C := by
  intro kv hkv j hj heq
  unfold blakeCollisionFree at h
  rw [List.all_eq_true] at h
  have h1 := h kv hkv
  rw [List.all_eq_true] at h1
  have h2 := h1 j (List.mem_range.mpr (by omega))
  simp only [Bool.or_eq_true, bne_iff_ne, ne_eq, beq_iff_eq] at h2
  rcases h2 with hne | hb
  · exact absurd heq hne
  · exact hb

/-- On a buffer of at least one chunk, `gen_delta_from_file` is its scan
loop over the computed rolling hashes. -/
lemma gen_delta_eq_loop (buffer : List Nat) (C : Nat) (algorithm : String)
    (signatures : SigTable) (hCb : C ≤ buffer.length) :
    ∃ hs, calculate_rolling_hashes C (algoOfString algorithm) buffer = some hs ∧
      gen_delta_from_file buffer C algorithm signatures =
        deltaLoop buffer C hs signatures (buffer.length + 1) 0 := by
  cases hcalc : calculate_rolling_hashes C (algoOfString algorithm) buffer with
  | none =>
      have := (calculate_rolling_hashes_isSome C (algoOfString algorithm) buffer).mpr hCb
      rw [hcalc] at this
      cases this
  | some hs =>
      refine ⟨hs, rfl, ?_⟩
      unfold gen_delta_from_file
      rw [hcalc]

/-- C1 (amended): with `|N| ≥ C` (the encoder panics on a shorter new
file; see the counterexample) and no BLAKE2s collision between the
signature entries and the windows of `N`, the delta generated against the
signature table of any old file `O` patches back to exactly `N` -- for
every chunk size `C ≥ 2` and any algorithm string. -/
theorem delta_patch_roundtrip (O N : List Nat) (C : Nat) (algorithm : String)
    (table : SigTable) (collisions : Nat)
    (hC : 2 ≤ C) (hlen : C ≤ N.length)
    (hsigs : gen_sigs O C algorithm = some (table, collisions))
    (hstrong : blakeCollisionFree table N C = true) :
    ∃ delta, gen_delta_from_file N C algorithm table = some delta ∧
      patch_file_with_delta delta table = some N := by
  obtain ⟨hs, hcalc, heq⟩ := gen_delta_eq_loop N C algorithm table hlen
  have hwf := gen_sigs_wf O C algorithm table collisions (by omega) hsigs
  have Hbytes := calculate_rolling_hashes_bytes C (algoOfString algorithm) N hs
    (by omega) hcalc
  have Hck : ∀ kv ∈ table, kv.2.checksum = get_blake2 kv.2.bytes :=
    fun kv hkv => (hwf.1 kv hkv).1
  have Hstrong := blakeCollisionFree_spec table N C hstrong
  obtain ⟨ts, hts, hp⟩ := deltaLoop_roundtrip N C hs table (by omega) hlen Hbytes
    Hck hwf.2 Hstrong (N.length + 1) 0 (by omega) (by omega)
  refine ⟨ts, ?_, ?_⟩
  · rw [heq]
    exact hts
  · simpa using hp

/-- C1 (counterexample to the unrestricted claim): with `C = 2`,
`O = [1,2]` and the one-byte new file `N = [9]`, the encoder panics on
the out-of-range slice `&buffer[0..2]`, so the pipeline produces nothing
instead of reconstructing `N`. -/
theorem delta_patch_roundtrip_cex :
    ((gen_sigs [1, 2] 2 "adler").bind (fun p =>
      (gen_delta_from_file [9] 2 "adler" p.1).bind (fun d =>
        patch_file_with_delta d p.1))) ≠ some [9] := by decide

theorem delta_patch_roundtrip_witness :
    (2 ≤ (2 : Nat) ∧ 2 ≤ rtN.length ∧
      gen_sigs rtO 2 "adler" = some (rtTable, rtColl) ∧
      blakeCollisionFree rtTable rtN 2 = true) ∧
    ∃ delta, gen_delta_from_file rtN 2 "adler" rtTable = some delta ∧
      patch_file_with_delta delta rtTable = some rtN :=
  ⟨⟨by decide, by decide, by decide, by decide⟩,
    delta_patch_roundtrip rtO rtN 2 "adler" rtTable rtColl
      (by decide) (by decide) (by decide) (by decide)⟩

/-- Unpacks the decidable rolling-agreement check. -/
lemma rollingMatchesFresh_spec (O : List Nat) (C : Nat) (algorithm : String)
    (hs : List HashBlock) (h : rollingMatchesFresh O C algorithm = true)
    (hcalc : calculate_rolling_hashes C (algoOfString algorithm) O = some hs) :
    ∀ k, k < O.length / C →
      (hs.getD (k * C) junkBlock).weak_hash =
        weakOfChunk algorithm ((O.drop (k * C)).take C) := by
  intro k hk
  unfold rollingMatchesFresh at h
  rw [hcalc] at h
  rw [List.all_eq_true] at h
  have h1 := h k (List.mem_range.mpr hk)
  simpa using h1

/-- Unpacks the decidable weak-injectivity check. -/
lemma chunksWeakInjective_spec (O : List Nat) (C : Nat) (algorithm : String)
    (h : chunksWeakInjective O C algorithm = true) :
    ∀ c1 ∈ fullChunks C O, ∀ c2 ∈ fullChunks C O,
      weakOfChunk algorithm c1 = weakOfChunk algorithm c2 → c1 = c2 := by
  intro c1 h1 c2 h2 hw
  unfold chunksWeakInjective at h
  rw [List.all_eq_true] at h
  have h3 := h c1 h1
  rw [List.all_eq_true] at h3
  have h4 := h3 c2 h2
  simp only [Bool.or_eq_true, bne_iff_ne, ne_eq, beq_iff_eq] at h4
  rcases h4 with hne | he
  · exact absurd hw hne
  · exact he

/-- Chunk `k` of the partition is a member of the partition. -/
lemma mem_fullChunks_of_lt (O : List Nat) (C : Nat) (hC : 1 ≤ C) (k : Nat)
    (hk : k < (fullChunks C O).length) :
    (O.drop (k * C)).take C ∈ fullChunks C O := by
  have hg := fullChunks_getD C hC O.length O (le_refl _) k hk
  rw [← hg, List.getD_eq_getElem _ _ hk]
  exact List.getElem_mem hk

/-- Unfolding of the patcher on a resolvable `Match` token. -/
lemma patch_cons_I (i : Nat) (rest : List Delta) (signatures : SigTable)
    (data : List Nat) (h : get_data i signatures = some data) :
    patch_file_with_delta (Delta.I i :: rest) signatures =
      (patch_file_with_delta rest signatures).map (fun r => data ++ r) := by
  simp [patch_file_with_delta, h]

/-- The self-delta scan: when the rolling hashes agree with fresh chunk
hashes at chunk boundaries and the table resolves every chunk, the scan
emits one `Match` per chunk and a literal tail, and patches back to the
remaining buffer. -/
lemma deltaLoop_self (O : List Nat) (C : Nat) (hs : List HashBlock)
    (table : SigTable) (algorithm : String) (hC : 1 ≤ C) (hCb : C ≤ O.length)
    (Hbytes : ∀ i, i + C ≤ O.length →
      (hs.getD i junkBlock).bytes = (O.drop i).take C)
    (Hck : ∀ kv ∈ table, kv.2.checksum = get_blake2 kv.2.bytes)
    (Hdist : List.Pairwise (fun x y => x.2.index ≠ y.2.index) table)
    (Hhash : ∀ k, k < O.length / C →
      (hs.getD (k * C) junkBlock).weak_hash =
        weakOfChunk algorithm ((O.drop (k * C)).take C))
    (Hcomp : ∀ c ∈ fullChunks C O, ∃ sig,
      lookupSig table (weakOfChunk algorithm c) = some sig ∧ sig.bytes = c) :
    ∀ (fuel k : Nat), k ≤ O.length / C → O.length - k * C < fuel →
      ∃ ms, deltaLoop O C hs table fuel (k * C) =
          some (ms ++ (O.drop ((O.length / C) * C)).map Delta.B) ∧
        ms.length = O.length / C - k ∧
        (∀ t ∈ ms, ∃ i, t = Delta.I i) ∧
        patch_file_with_delta (ms ++ (O.drop ((O.length / C) * C)).map Delta.B)
          table = some (O.drop (k * C)) := by
  intro fuel
  induction fuel with
  | zero => intro k _ hf; exact absurd hf (Nat.not_lt_zero _)
  | succ fuel ih =>
      intro k hkK hfuel
      by_cases hk : k < O.length / C
      · have hk1K : k + 1 ≤ O.length / C := hk
        have hmulK : (O.length / C) * C ≤ O.length := Nat.div_mul_le_self O.length C
        have hmul1 : (k + 1) * C = k * C + C := by ring
        have hmul2 : (k + 1) * C ≤ (O.length / C) * C := Nat.mul_le_mul_right C hk1K
        have hidxC : k * C + C ≤ O.length := by omega
        have hlt : k * C < O.length := by omega
        have htail : ¬ (O.length - C < k * C) := by omega
        have hkflen : k < (fullChunks C O).length := by
          rw [fullChunks_length C hC O.length O (le_refl _)]
          exact hk
        obtain ⟨sig, hlook, hsigb⟩ :=
          Hcomp _ (mem_fullChunks_of_lt O C hC k hkflen)
        have hl : lookupSig table (hs.getD (k * C) junkBlock).weak_hash = some sig := by
          rw [Hhash k hk]
          exact hlook
        obtain ⟨kv, hmem, hkey, hkv, _⟩ := (lookupSig_eq_some_iff _ _ _).mp hlook
        have hck : sig.checksum = get_blake2 ((hs.getD (k * C) junkBlock).bytes) := by
          rw [Hbytes (k * C) hidxC, ← hsigb, ← hkv]
          exact Hck kv hmem
        obtain ⟨ms', hloop', hlen', hmatch', hpatch'⟩ := ih (k + 1) hk1K (by omega)
        rw [hmul1] at hloop' hpatch'
        have hget : get_data sig.index table = some sig.bytes := by
          have h3 := get_data_of_mem table kv hmem Hdist
          rw [hkv] at h3
          exact h3
        have hres : sig.bytes ++ O.drop (k * C + C) = O.drop (k * C) := by
          rw [hsigb]
          have h2 : (O.drop (k * C)).drop C = O.drop (k * C + C) := by
            rw [List.drop_drop]
          rw [← h2]
          exact List.take_append_drop C (O.drop (k * C))
        refine ⟨Delta.I sig.index :: ms', ?_, ?_, ?_, ?_⟩
        · simp only [deltaLoop, if_pos hlt, if_neg htail, hl, if_pos hck, hloop',
            Option.map_some']
          rfl
        · simp only [List.length_cons, hlen']
          omega
        · intro t ht
          rcases List.mem_cons.mp ht with rfl | ht'
          · exact ⟨sig.index, rfl⟩
          · exact hmatch' t ht'
        · rw [List.cons_append, patch_cons_I sig.index _ table sig.bytes hget,
            hpatch', Option.map_some', hres]
      · have hkeq : k = O.length / C := by omega
        subst hkeq
        have hmulK : (O.length / C) * C ≤ O.length := Nat.div_mul_le_self O.length C
        have hmod : O.length % C < C := Nat.mod_lt _ (by omega)
        have hdm : C * (O.length / C) + O.length % C = O.length :=
          Nat.div_add_mod O.length C
        have hcomm : (O.length / C) * C = C * (O.length / C) := Nat.mul_comm _ _
        by_cases hlt : (O.length / C) * C < O.length
        · have htail : O.length - C < (O.length / C) * C := by omega
          refine ⟨[], ?_, by simp, ?_, ?_⟩
          · simp only [deltaLoop, if_pos hlt, if_pos htail]
            rfl
          · intro t ht
            cases ht
          · rw [List.nil_append]
            exact patch_literals _ table
        · have hend : (O.length / C) * C = O.length := by omega
          have hnil : O.drop ((O.length / C) * C) = [] := by
            rw [hend]
            exact List.drop_length O
          refine ⟨[], ?_, by simp, ?_, ?_⟩
          · rw [hnil]
            simp only [deltaLoop]
            rw [if_neg hlt]
            rfl
          · intro t ht
            cases ht
          · rw [hnil]
            rfl

/-- C5 (amended): for `O == N` with `|O| ≥ C` (shorter inputs panic the
encoder), no weak-hash collision among `O`'s chunks, and a rolling scan
that agrees with fresh chunk hashing on `O` (that is, no wrapping
subtraction on this input), the delta is `⌊|O|/C⌋` `Match` tokens followed
by `|O| mod C` `Literal` tokens -- `⌊|O|/C⌋ + |O| mod C` tokens in all --
and patching yields `O` exactly. -/
theorem self_delta_all_match (O : List Nat) (C : Nat) (algorithm : String)
    (table : SigTable) (collisions : Nat)
    (hC : 2 ≤ C) (hlen : C ≤ O.length)
    (hsigs : gen_sigs O C algorithm = some (table, collisions))
    (hinj : chunksWeakInjective O C algorithm = true)
    (hroll : rollingMatchesFresh O C algorithm = true) :
    ∃ ms, gen_delta_from_file O C algorithm table =
        some (ms ++ (O.drop ((O.length / C) * C)).map Delta.B) ∧
      ms.length = O.length / C ∧
      (∀ t ∈ ms, ∃ i, t = Delta.I i) ∧
      (ms ++ (O.drop ((O.length / C) * C)).map Delta.B).length =
        O.length / C + O.length % C ∧
      patch_file_with_delta (ms ++ (O.drop ((O.length / C) * C)).map Delta.B)
        table = some O := by
  obtain ⟨hs, hcalc, heq⟩ := gen_delta_eq_loop O C algorithm table hlen
  have hwf := gen_sigs_wf O C algorithm table collisions (by omega) hsigs
  have Hbytes := calculate_rolling_hashes_bytes C (algoOfString algorithm) O hs
    (by omega) hcalc
  have Hck : ∀ kv ∈ table, kv.2.checksum = get_blake2 kv.2.bytes :=
    fun kv hkv => (hwf.1 kv hkv).1
  have Hhash := rollingMatchesFresh_spec O C algorithm hs hroll hcalc
  have Hcomp := gen_sigs_complete O C algorithm table collisions (by omega) hsigs
    (chunksWeakInjective_spec O C algorithm hinj)
  have hz : 0 * C = 0 := Nat.zero_mul C
  obtain ⟨ms, hloop, hmslen, hmatch, hpatch⟩ :=
    deltaLoop_self O C hs table algorithm (by omega) hlen Hbytes Hck hwf.2
      Hhash Hcomp (O.length + 1) 0 (Nat.zero_le _) (by rw [Nat.zero_mul]; omega)
  rw [hz] at hloop hpatch
  rw [Nat.sub_zero] at hmslen
  have hcomm : (O.length / C) * C = C * (O.length / C) := Nat.mul_comm _ _
  have hdm : C * (O.length / C) + O.length % C = O.length := Nat.div_add_mod O.length C
  have h5 : O.length - (O.length / C) * C = O.length % C := by
    calc O.length - (O.length / C) * C
        = (C * (O.length / C) + O.length % C) - (O.length / C) * C := by rw [hdm]
      _ = ((O.length / C) * C + O.length % C) - (O.length / C) * C := by rw [hcomm]
      _ = O.length % C := Nat.add_sub_cancel_left _ _
  refine ⟨ms, ?_, hmslen, hmatch, ?_, ?_⟩
  · rw [heq]
    exact hloop
  · simp only [List.length_append, List.length_map, List.length_drop]
    rw [hmslen, h5]
  · rw [hpatch, List.drop_zero]

/-- C5 (counterexample to the unrestricted claim): `O = N = [0,2,0,1,0,1]`
with `C = 3`, Adler-32.  The two chunks `[0,2,0]` and `[1,0,1]` share weak
hash `458755`, so signing drops the second chunk, the encoder falls back to
literals for it, and the delta has 4 tokens, not `⌊6/3⌋ + 6 mod 3 = 2`. -/
theorem self_delta_all_match_cex :
    ((gen_sigs [0, 2, 0, 1, 0, 1] 3 "adler").bind (fun p =>
      (gen_delta_from_file [0, 2, 0, 1, 0, 1] 3 "adler" p.1).map List.length))
      ≠ some (6 / 3 + 6 % 3) := by decide

theorem self_delta_all_match_witness :
    (2 ≤ (2 : Nat) ∧ 2 ≤ sdO.length ∧
      gen_sigs sdO 2 "adler" = some (sdTable, sdColl) ∧
      chunksWeakInjective sdO 2 "adler" = true ∧
      rollingMatchesFresh sdO 2 "adler" = true) ∧
    ∃ ms, gen_delta_from_file sdO 2 "adler" sdTable =
        some (ms ++ (sdO.drop ((sdO.length / 2) * 2)).map Delta.B) ∧
      ms.length = sdO.length / 2 ∧
      (∀ t ∈ ms, ∃ i, t = Delta.I i) ∧
      (ms ++ (sdO.drop ((sdO.length / 2) * 2)).map Delta.B).length =
        sdO.length / 2 + sdO.length % 2 ∧
      patch_file_with_delta (ms ++ (sdO.drop ((sdO.length / 2) * 2)).map Delta.B)
        sdTable = some sdO :=
  ⟨⟨by decide, by decide, by decide, by decide, by decide⟩,
    self_delta_all_match sdO 2 "adler" sdTable sdColl
      (by decide) (by decide) (by decide) (by decide) (by decide)⟩

/-- C2 (code-bug exhibit): Fletcher-32, `B` = 23 bytes of `255`, `C = 22`,
offset `i = 1`.  After `init(B[0:22])` and `slide(B[22])` the window is
`B[1:23]` (all 255s, identical to `B[0:22]`), but the returned hash is
`4228126186` while a fresh `init(B[1:23])` returns `4228060650`: the
`b` accumulator's subtraction `b - size*last` wrapped below zero.  In a
debug build the same slide panics. -/
theorem fletcher_rolling_equivalence_cex :
    (Fletcher32.get_rolling_hash
        (Fletcher32.get_chunk_hash Fletcher32.new (List.replicate 22 255)).1
        255).1.current_window = List.replicate 22 255 ∧
    (Fletcher32.get_rolling_hash
        (Fletcher32.get_chunk_hash Fletcher32.new (List.replicate 22 255)).1
        255).2 = 4228126186 ∧
    (Fletcher32.get_chunk_hash Fletcher32.new (List.replicate 22 255)).2
      = 4228060650 := by decide

/-- C3 (code-bug exhibit): Adler-32, window = 22 bytes of `255`, slide in
another `255`.  The slide leaves the window unchanged, so the intended
residue is the full-window value `4229502443`, but the returned hash is
`4244248043`: `b = 4881` underflows by `23 * 255 = 5865` and the wrapped
difference is reduced `mod 65521` (`2^32 mod 65521 = 225 ≠ 0`).  In a
debug build the subtraction panics instead. -/
theorem adler_slide_underflow_cex :
    (Adler32.get_rolling_hash
        (Adler32.get_chunk_hash Adler32.new (List.replicate 22 255)).1
        255).1.current_window = List.replicate 22 255 ∧
    (Adler32.get_rolling_hash
        (Adler32.get_chunk_hash Adler32.new (List.replicate 22 255)).1
        255).2 = 4244248043 ∧
    (Adler32.get_chunk_hash Adler32.new (List.replicate 22 255)).2
      = 4229502443 := by decide

/-- C4 (code-bug exhibit): a one-byte new file with `C = 2` panics the
encoder (out-of-range slice `&buffer[0..2]` inside
`calculate_rolling_hashes`) instead of emitting one `Literal`; the whole
`delta` pipeline produces nothing, for any old file. -/
theorem delta_short_input_panics :
    gen_delta_from_file [97] 2 "adler"
        (((gen_sigs [5, 6, 7, 8] 2 "adler").getD ([], 0)).1) = none ∧
    run_delta_command [5, 6, 7, 8] [97] (some 2) (some "adler") = none := by decide

/-- C8: the repository's known-answer vectors.  Adler-32 over
`"hello world"` is `436929629`; sliding in `'a' = 97` then `'m' = 109`
gives `434635862` then `435029086`.  Fletcher-32 over the same string is
`436208732`, then `433914965` and `434308189`. -/
theorem known_answer_vectors :
    (Adler32.get_chunk_hash Adler32.new helloWorldBytes).2 = 436929629 ∧
    (Adler32.get_rolling_hash
        (Adler32.get_chunk_hash Adler32.new helloWorldBytes).1 97).2 = 434635862 ∧
    (Adler32.get_rolling_hash
        (Adler32.get_rolling_hash
          (Adler32.get_chunk_hash Adler32.new helloWorldBytes).1 97).1
        109).2 = 435029086 ∧
    (Fletcher32.get_chunk_hash Fletcher32.new helloWorldBytes).2 = 436208732 ∧
    (Fletcher32.get_rolling_hash
        (Fletcher32.get_chunk_hash Fletcher32.new helloWorldBytes).1 97).2
      = 433914965 ∧
    (Fletcher32.get_rolling_hash
        (Fletcher32.get_rolling_hash
          (Fletcher32.get_chunk_hash Fletcher32.new helloWorldBytes).1 97).1
        109).2 = 434308189 := by decide

/-- Closed form of the Adler-32 accumulator fold: starting from reduced
accumulators, the fold ends at the mod-reduced plain sums. -/
lemma foldl_chunkStep_adler :
    ∀ (c : List Nat) (a b : Nat),
      c.foldl Adler32.chunkStep (a % Adler32.MOD, b % Adler32.MOD) =
        ((a + c.sum) % Adler32.MOD, (b + weakAccumB a c) % Adler32.MOD) := by
  intro c
  induction c with
  | nil =>
      intro a b
      simp [weakAccumB]
  | cons x rest ih =>
      intro a b
      have hstep : Adler32.chunkStep (a % Adler32.MOD, b % Adler32.MOD) x =
          ((a + x) % Adler32.MOD, (b + (a + x)) % Adler32.MOD) := by
        have hunfold : Adler32.chunkStep (a % Adler32.MOD, b % Adler32.MOD) x =
            ((a % Adler32.MOD + x) % Adler32.MOD,
             (b % Adler32.MOD + (a % Adler32.MOD + x) % Adler32.MOD) % Adler32.MOD) := rfl
        rw [hunfold]
        simp only [Prod.mk.injEq, Adler32.MOD]
        constructor <;> omega
      rw [List.foldl_cons, hstep, ih (a + x) (b + (a + x))]
      simp only [List.sum_cons, weakAccumB, Prod.mk.injEq]
      constructor
      · simp only [Adler32.MOD]
        omega
      · simp only [Adler32.MOD]
        omega

/-- Closed form of the Fletcher-32 accumulator fold. -/
lemma foldl_chunkStep_fletcher :
    ∀ (c : List Nat) (a b : Nat),
      c.foldl Fletcher32.chunkStep (a % Fletcher32.MOD, b % Fletcher32.MOD) =
        ((a + c.sum) % Fletcher32.MOD, (b + weakAccumB a c) % Fletcher32.MOD) := by
  intro c
  induction c with
  | nil =>
      intro a b
      simp [weakAccumB]
  | cons x rest ih =>
      intro a b
      have hstep : Fletcher32.chunkStep (a % Fletcher32.MOD, b % Fletcher32.MOD) x =
          ((a + x) % Fletcher32.MOD, (b + (a + x)) % Fletcher32.MOD) := by
        have hunfold : Fletcher32.chunkStep (a % Fletcher32.MOD, b % Fletcher32.MOD) x =
            ((a % Fletcher32.MOD + x) % Fletcher32.MOD,
             (b % Fletcher32.MOD + (a % Fletcher32.MOD + x) % Fletcher32.MOD) % Fletcher32.MOD) := rfl
        rw [hunfold]
        simp only [Prod.mk.injEq, Fletcher32.MOD]
        constructor <;> omega
      rw [List.foldl_cons, hstep, ih (a + x) (b + (a + x))]
      simp only [List.sum_cons, weakAccumB, Prod.mk.injEq]
      constructor
      · simp only [Fletcher32.MOD]
        omega
      · simp only [Fletcher32.MOD]
        omega

/-- C7 (amended): `get_chunk_hash` always sets the window to exactly the
given chunk, and on a freshly constructed hasher its accumulators are the
spec's full-chunk values (`a = a0 + Σ bytes mod M`, `b = Σ aᵢ mod M`), so
the hash is then determined by the chunk alone.  The accumulators are NOT
reset on a previously used instance (see the counterexample), although the
window still is. -/
theorem get_chunk_hash_fresh_spec (s : HashState) (chunk : List Nat) :
    (Adler32.get_chunk_hash s chunk).1.current_window = chunk ∧
    (Fletcher32.get_chunk_hash s chunk).1.current_window = chunk ∧
    (Adler32.get_chunk_hash Adler32.new chunk).1.a =
      (1 + chunk.sum) % Adler32.MOD ∧
    (Adler32.get_chunk_hash Adler32.new chunk).1.b =
      weakAccumB 1 chunk % Adler32.MOD ∧
    (Fletcher32.get_chunk_hash Fletcher32.new chunk).1.a =
      chunk.sum % Fletcher32.MOD ∧
    (Fletcher32.get_chunk_hash Fletcher32.new chunk).1.b =
      weakAccumB 0 chunk % Fletcher32.MOD := by
  have ha := foldl_chunkStep_adler chunk 1 0
  have hstarta : ((1 : Nat) % Adler32.MOD, (0 : Nat) % Adler32.MOD) = ((1 : Nat), (0 : Nat)) := by
    decide
  rw [hstarta] at ha
  have hf := foldl_chunkStep_fletcher chunk 0 0
  have hstartf : ((0 : Nat) % Fletcher32.MOD, (0 : Nat) % Fletcher32.MOD) = ((0 : Nat), (0 : Nat)) := by
    decide
  rw [hstartf] at hf
  refine ⟨rfl, rfl, ?_, ?_, ?_, ?_⟩
  · show (chunk.foldl Adler32.chunkStep (1, 0)).1 = (1 + chunk.sum) % Adler32.MOD
    rw [ha]
  · show (chunk.foldl Adler32.chunkStep (1, 0)).2 = weakAccumB 1 chunk % Adler32.MOD
    rw [ha]
    simp
  · show (chunk.foldl Fletcher32.chunkStep (0, 0)).1 = chunk.sum % Fletcher32.MOD
    rw [hf]
    simp
  · show (chunk.foldl Fletcher32.chunkStep (0, 0)).2 = weakAccumB 0 chunk % Fletcher32.MOD
    rw [hf]
    simp

/-- C7 (counterexample): `get_chunk_hash` does not reset the accumulators,
so a second `init` on the same instance returns a different hash for the
same chunk: the claim's "independent of any previously consumed bytes"
fails on a reused hasher. -/
theorem init_does_not_reset_cex :
    (Adler32.get_chunk_hash (Adler32.get_chunk_hash Adler32.new [0]).1 [0]).2
      ≠ (Adler32.get_chunk_hash Adler32.new [0]).2 ∧
    (Fletcher32.get_chunk_hash (Fletcher32.get_chunk_hash Fletcher32.new [1]).1 [1]).2
      ≠ (Fletcher32.get_chunk_hash Fletcher32.new [1]).2 := by decide

/-- C6: every entry of a generated signature table stores exactly `C`
bytes, namely the chunk of `O` at offset `index * C` (the index counter
advances for every visited chunk, dropped or not, so an entry's index is
its chunk's ordinal and retained indices may have gaps), and its strong
checksum is the BLAKE2s-256 digest of those bytes. -/
theorem gen_sigs_entry_invariants (O : List Nat) (C : Nat) (algorithm : String)
    (table : SigTable) (collisions : Nat) (hC : 1 ≤ C)
    (h : gen_sigs O C algorithm = some (table, collisions)) :
    ∀ kv ∈ table,
      kv.2.bytes.length = C ∧
      kv.2.checksum = get_blake2 kv.2.bytes ∧
      kv.2.bytes = (O.drop (kv.2.index * C)).take C ∧
      kv.2.index * C + C ≤ O.length := by
  intro kv hkv
  have hwf := (gen_sigs_wf O C algorithm table collisions hC h).1 kv hkv
  refine ⟨?_, hwf.1, hwf.2.1, hwf.2.2.1⟩
  rw [hwf.2.1, List.length_take, List.length_drop]
  have := hwf.2.2.1
  omega

theorem gen_sigs_entry_invariants_witness :
    (1 ≤ (3 : Nat) ∧ gen_sigs gapO 3 "adler" = some (gapTable, gapColl)) ∧
    (∀ kv ∈ gapTable,
      kv.2.bytes.length = 3 ∧
      kv.2.checksum = get_blake2 kv.2.bytes ∧
      kv.2.bytes = (gapO.drop (kv.2.index * 3)).take 3 ∧
      kv.2.index * 3 + 3 ≤ gapO.length) ∧
    gapTable.map (fun kv => kv.2.index) = [0, 2] :=
  ⟨⟨by decide, by decide⟩,
    gen_sigs_entry_invariants gapO 3 "adler" gapTable gapColl (by decide) (by decide),
    by decide⟩

/-- C9: patching is fatal exactly on a `Match` index no table entry
carries; otherwise the output is the in-order concatenation of one byte
per `Literal` and the stored chunk bytes of the entry whose `index`
equals the `Match`'s index (well-defined whenever indices are pairwise
distinct, as `gen_sigs` guarantees). -/
theorem patch_token_semantics (delta : List Delta) (signatures : SigTable) :
    ((∃ i, Delta.I i ∈ delta ∧ ∀ kv ∈ signatures, kv.2.index ≠ i) →
      patch_file_with_delta delta signatures = none) ∧
    ((∀ i, Delta.I i ∈ delta → ∃ kv ∈ signatures, kv.2.index = i) →
      patch_file_with_delta delta signatures =
        some ((delta.map (resolveToken signatures)).flatten)) ∧
    (List.Pairwise (fun x y => x.2.index ≠ y.2.index) signatures →
      ∀ kv ∈ signatures, resolveToken signatures (Delta.I kv.2.index) = kv.2.bytes) := by
  refine ⟨?_, ?_, ?_⟩
  · intro ⟨i, hmem, hnone⟩
    induction delta with
    | nil => cases hmem
    | cons t rest ih =>
        cases t with
        | B b =>
            have hmem' : Delta.I i ∈ rest := by
              rcases List.mem_cons.mp hmem with heq | h'
              · cases heq
              · exact h'
            simp [patch_file_with_delta, ih hmem']
        | I j =>
            rcases List.mem_cons.mp hmem with heq | h'
            · have hj : j = i := by
                injection heq.symm
              subst hj
              have hnone' : get_data j signatures = none :=
                get_data_eq_none signatures j hnone
              simp [patch_file_with_delta, hnone']
            · cases hget : get_data j signatures with
              | none => simp [patch_file_with_delta, hget]
              | some data => simp [patch_file_with_delta, hget, ih h']
  · intro hall
    induction delta with
    | nil => rfl
    | cons t rest ih =>
        have hall' : ∀ i, Delta.I i ∈ rest → ∃ kv ∈ signatures, kv.2.index = i :=
          fun i hi => hall i (List.mem_cons_of_mem t hi)
        cases t with
        | B b => simp [patch_file_with_delta, ih hall', resolveToken]
        | I j =>
            obtain ⟨kv, hkv, hidx⟩ := hall j (List.mem_cons_self _ _)
            have hsome : (get_data j signatures).isSome := by
              unfold get_data
              cases hfind : signatures.find? (fun kv => kv.2.index == j) with
              | some kv' => rfl
              | none =>
                  have := List.find?_eq_none.mp hfind kv hkv
                  simp [hidx] at this
            cases hget : get_data j signatures with
            | none => rw [hget] at hsome; cases hsome
            | some data =>
                simp [patch_file_with_delta, hget, ih hall', resolveToken]
  · intro hdist kv hkv
    show (get_data kv.2.index signatures).getD [] = kv.2.bytes
    rw [get_data_of_mem signatures kv hkv hdist]
    rfl

theorem patch_token_semantics_witness :
    patch_file_with_delta [Delta.I 5] demoTable = none ∧
    patch_file_with_delta [Delta.B 5, Delta.I 0] demoTable =
      some (([Delta.B 5, Delta.I 0].map (resolveToken demoTable)).flatten) ∧
    resolveToken demoTable (Delta.I 0) = [7, 8] := by
  refine ⟨?_, ?_, ?_⟩
  · exact (patch_token_semantics [Delta.I 5] demoTable).1
      ⟨5, by decide, by decide⟩
  · refine (patch_token_semantics [Delta.B 5, Delta.I 0] demoTable).2.1 ?_
    intro i hi
    have hi0 : i = 0 := by
      rcases List.mem_cons.mp hi with heq | h'
      · cases heq
      · rcases List.mem_cons.mp h' with heq | h''
        · simpa using heq
        · cases h''
    subst hi0
    exact ⟨(99, { index := 0, checksum := [1], bytes := [7, 8] }), by decide, rfl⟩
  · have := (patch_token_semantics [] demoTable).2.2 (by decide)
      (99, { index := 0, checksum := [1], bytes := [7, 8] }) (by decide)
    simpa using this

/-- C10: with any algorithm string other than `"adler"` or `"fletcher"`,
each of the three subcommands panics in `algo_msg` before any checksum
work, whatever the files, delta, or chunk size. -/
theorem invalid_algorithm_fatal (algo : String)
    (h1 : algo ≠ "adler") (h2 : algo ≠ "fletcher") :
    ∀ (file oldFile : List Nat) (delta : List Delta) (chunk_size : Option Nat),
      run_sign_command file chunk_size (some algo) = none ∧
      run_delta_command oldFile file chunk_size (some algo) = none ∧
      run_patch_command oldFile delta chunk_size (some algo) = none := by
  intro file oldFile delta chunk_size
  have halgo : algo_msg (some algo) = none := by
    show (if algo = "adler" ∨ algo = "fletcher" then some () else none) = none
    rw [if_neg]
    rintro (ha | hf)
    · exact h1 ha
    · exact h2 hf
  refine ⟨?_, ?_, ?_⟩ <;>
    simp [run_sign_command, run_delta_command, run_patch_command, halgo]

theorem invalid_algorithm_fatal_witness :
    ("blake" ≠ "adler") ∧ ("blake" ≠ "fletcher") ∧
    (run_sign_command [1, 2] (some 2) (some "blake") = none ∧
     run_delta_command [3, 4] [1, 2] (some 2) (some "blake") = none ∧
     run_patch_command [3, 4] [Delta.B 1] (some 2) (some "blake") = none) :=
  ⟨by decide, by decide,
    invalid_algorithm_fatal "blake" (by decide) (by decide)
      [1, 2] [3, 4] [Delta.B 1] (some 2)⟩
